import Mathlib

/-!
Shallow embedding of the mccloud peer-to-peer blockchain runtime
(crates `mccloud` and `mcriddle` of the void-ripper/mccloud repository).

Bytes are modelled as `Nat`, byte strings as `List Nat`.  Public keys
(33 bytes), hashes (32 bytes) and signatures (64 bytes) are all byte
strings.  Cryptographic and serialization primitives supplied by
external crates (sha2, k256 Schnorr, borsh, zstd) are not code of this
repository; they are gathered in a `Prim` record of function parameters,
so every theorem below holds for each instantiation of those primitives,
in particular the real ones.
-/

/-- A signed user payload (`Data` in `mcriddle/src/blockchain.rs`):
opaque payload bytes, author public key, Schnorr signature. -/
structure Data where
  data : List Nat
  author : List Nat
  sign : List Nat
deriving DecidableEq

/-- A single block of the chain (`Block` in `mcriddle/src/blockchain.rs`). -/
structure Block where
  parent : Option (List Nat)
  hash : List Nat
  data : List Data
  next_choices : List (List Nat)
  author : List Nat
  sign : List Nat
deriving DecidableEq

/-- One on-disk record of `index.db` (`IndexEntry` in
`mcriddle/src/blockchain.rs`): block hash, byte offset into `blocks.db`,
and byte size of the zstd-compressed encoded block. -/
structure IndexEntry where
  hash : List Nat
  pos : Nat
  size : Nat
deriving DecidableEq

/-- External primitives used by the chain store: SHA-256 (`sha2` crate),
Schnorr signature verification over secp256k1 (`k256` crate,
`verify_prehash` applied to author key, digest, signature), borsh
serialization of blocks and zstd compression.  `deserialize` and
`decompress` return `none` on failure (`Err`); `schnorrVerify` returning
`false` stands for the `Err` of `verify_prehash`. -/
structure Prim where
  sha256 : List Nat → List Nat
  schnorrVerify : List Nat → List Nat → List Nat → Bool
  serialize : Block → List Nat
  deserialize : List Nat → Option Block
  compress : List Nat → List Nat
  decompress : List Nat → Option (List Nat)

/-- `hash_data` of `mcriddle/src/blockchain.rs`: SHA-256 over the
concatenation of the parent hash (when present), the author key, the
`next` keys and, for each data entry, payload bytes, author and
signature — the incremental `sha.update` calls amount to hashing the
concatenation. -/
def hash_data (E : Prim) (last : Option (List Nat)) (pubkey : List Nat)
    (next : List (List Nat)) (data : List Data) : List Nat :=
  E.sha256 ((match last with | some parent => parent | none => []) ++ pubkey
    ++ next.flatten ++ (data.map (fun d => d.data ++ d.author ++ d.sign)).flatten)

/-- `Block::verify`: recompute the digest with `hash_data` and check the
block signature against the author key over that digest.  Note that the
stored `hash` field of the block is not consulted. -/
def Block.verify (E : Prim) (b : Block) : Bool :=
  E.schnorrVerify b.author (hash_data E b.parent b.author b.next_choices b.data) b.sign

/-- In-memory and on-disk chain state (`Blockchain` in
`mcriddle/src/blockchain.rs`).  The pending cache (`HashMap<SignBytes,
Data>`) is modelled as an association list from signature to data;
`indexFile` is the parsed record stream of `index.db` and `dbFile` the
raw byte content of `blocks.db`. -/
structure Blockchain where
  cache : List (List Nat × Data)
  root : Option (List Nat)
  last : Option (List Nat)
  next_authors : List (List Nat)
  count : Nat
  block_pos : Nat
  indexFile : List IndexEntry
  dbFile : List Nat
deriving DecidableEq

/-- `HashMap::remove` on the pending cache. -/
def cacheRemove (c : List (List Nat × Data)) (s : List Nat) : List (List Nat × Data) :=
  c.filter (fun p => p.1 ≠ s)

/-- `HashMap::get`-style lookup on the pending cache. -/
def cacheLookup (c : List (List Nat × Data)) (s : List Nat) : Option Data :=
  (c.find? (fun p => p.1 = s)).map (·.2)

/-- The `Chain`-kind errors `add_block` can reject with
(`Error::non_child_block`, `Error::unexpected_block_author` in
`error.rs`) plus the signature-verification failure propagated from
`Block::verify`. -/
inductive ChainErr where
  | nonChildBlock (hash : List Nat)
  | unexpectedAuthor (hash : List Nat) (author : List Nat) (expected : List (List Nat))
  | verifyFailed
deriving DecidableEq

/-- `Blockchain::add_block(blk, force)`.  The body is translated from
`mcriddle/src/blockchain.rs` (checks in source order: non-child parent,
unexpected author, signature verification; then root/cache/tip/count
updates and the appends to `index.db` and `blocks.db`).  The
`force` parameter of the author check is Modelled from the spec: the
current two-argument `add_block` called throughout `lib.rs` is not in
the provided sources, and §4.4 of the spec states the author check as
"reject with `UnexpectedAuthor` unless `block.author ∈ next_authors` OR
`force_allow_author` is true".  The returned state is the value of
`self` when the method returns, so each early `return Err` leaves the
state untouched. -/
def Blockchain.add_block (E : Prim) (bc : Blockchain) (blk : Block) (force : Bool) :
    Blockchain × Option ChainErr :=
  if bc.last ≠ blk.parent then
    (bc, some (ChainErr.nonChildBlock blk.hash))
  else if bc.root.isSome = true ∧ ¬(blk.author ∈ bc.next_authors ∨ force = true) then
    (bc, some (ChainErr.unexpectedAuthor blk.hash blk.author bc.next_authors))
  else if Block.verify E blk = false then
    (bc, some ChainErr.verifyFailed)
  else
    let enc := E.compress (E.serialize blk)
    let idx : IndexEntry := { hash := blk.hash, pos := bc.block_pos, size := enc.length }
    ({ cache := blk.data.foldl (fun c d => cacheRemove c d.sign) bc.cache
       root := if bc.root = none then some blk.hash else bc.root
       last := some blk.hash
       next_authors := blk.next_choices
       count := bc.count + 1
       block_pos := bc.block_pos + idx.size
       indexFile := bc.indexFile ++ [idx]
       dbFile := bc.dbFile ++ enc }, none)

/-- The state `Blockchain::new` builds when `index.db` does not yet
exist: both files created empty, everything reset. -/
def emptyChain : Blockchain :=
  { cache := [], root := none, last := none, next_authors := [], count := 0,
    block_pos := 0, indexFile := [], dbFile := [] }

/-- A toy instantiation of the external primitives, used to instantiate
the parametric theorems at concrete inputs: identity "compression", a
singleton-checksum "hash", and a "signature scheme" accepting every
signature. -/
def toyE : Prim :=
  { sha256 := fun l => [l.sum % 256, l.length % 256]
    schnorrVerify := fun _ _ _ => true
    serialize := fun _ => []
    deserialize := fun _ => none
    compress := id
    decompress := fun l => some l }

/-- C1: for every chain state and block, `add_block` rejects with
`NonChildBlock` exactly when the block's parent differs from the current
tip; it rejects with `UnexpectedAuthor` exactly when the parent matches,
the root is set, the author is not among `next_authors` and
`force_allow_author` is false; and on every rejection (the two above and
signature-verification failure alike) the entire chain state — root,
tip, count, next_authors, pending cache and the contents of `index.db`
and `blocks.db` — is unchanged. -/
theorem add_block_rejections (E : Prim) (bc : Blockchain) (blk : Block) (force : Bool) :
    ((bc.add_block E blk force).2 = some (ChainErr.nonChildBlock blk.hash) ↔
      bc.last ≠ blk.parent) ∧
    ((bc.add_block E blk force).2 =
        some (ChainErr.unexpectedAuthor blk.hash blk.author bc.next_authors) ↔
      (bc.last = blk.parent ∧ bc.root.isSome = true ∧ blk.author ∉ bc.next_authors ∧
        force = false)) ∧
    (∀ e : ChainErr, (bc.add_block E blk force).2 = some e →
      (bc.add_block E blk force).1 = bc) := by
  by_cases hpar : bc.last = blk.parent
  · by_cases hauth : bc.root.isSome = true ∧ ¬(blk.author ∈ bc.next_authors ∨ force = true)
    · have hres : bc.add_block E blk force =
          (bc, some (ChainErr.unexpectedAuthor blk.hash blk.author bc.next_authors)) := by
        unfold Blockchain.add_block
        rw [if_neg (not_not_intro hpar), if_pos hauth]
      rw [hres]
      refine ⟨by simp [hpar], ?_, by intro e _; rfl⟩
      constructor
      · intro _
        rcases hauth with ⟨hroot, hnot⟩
        push_neg at hnot
        exact ⟨hpar, hroot, hnot.1, by simpa using hnot.2⟩
      · intro _; rfl
    · by_cases hver : Block.verify E blk = false
      · have hres : bc.add_block E blk force = (bc, some ChainErr.verifyFailed) := by
          unfold Blockchain.add_block
          rw [if_neg (not_not_intro hpar), if_neg hauth, if_pos hver]
        rw [hres]
        refine ⟨by simp [hpar], ?_, by intro e _; rfl⟩
        constructor
        · intro h; simp at h
        · rintro ⟨-, hroot, hmem, hforce⟩
          exact absurd ⟨hroot, by simp [hmem, hforce]⟩ hauth
      · have hres2 : (bc.add_block E blk force).2 = none := by
          unfold Blockchain.add_block
          rw [if_neg (not_not_intro hpar), if_neg hauth, if_neg hver]
        refine ⟨by simp [hres2, hpar], ?_, by intro e h; rw [hres2] at h; cases h⟩
        rw [hres2]
        constructor
        · intro h; cases h
        · rintro ⟨-, hroot, hmem, hforce⟩
          exact absurd ⟨hroot, by simp [hmem, hforce]⟩ hauth
  · have hres : bc.add_block E blk force = (bc, some (ChainErr.nonChildBlock blk.hash)) := by
      unfold Blockchain.add_block
      rw [if_pos hpar]
    rw [hres]
    refine ⟨by simp [hpar], ?_, by intro e _; rfl⟩
    constructor
    · intro h; simp at h
    · rintro ⟨h, -⟩; exact absurd h hpar

/-- The recovered state of the open path of `Blockchain::new` when
`index.db` already exists (root, tip, next authors, record count and the
write position for `blocks.db`). -/
structure OpenResult where
  root : Option (List Nat)
  last : Option (List Nat)
  next_authors : List (List Nat)
  count : Nat
  block_pos : Nat
deriving DecidableEq

/-- The open path of `Blockchain::new` (`mcriddle/src/blockchain.rs`):
stream the `IndexEntry` records of `index.db` — the first entry's hash is
the root, the last entry is the tip, the record count is `count` — then
seek `blocks.db` to the last entry's offset, read `size` bytes,
zstd-decompress and borsh-deserialize the tip block, adopting its
`next_choices`.  `none` models a failing `read_exact`, a failing
decompression, or the `.unwrap()` panic on deserialization. -/
def openFiles (E : Prim) (index : List IndexEntry) (db : List Nat) : Option OpenResult :=
  match index with
  | [] => some { root := none, last := none, next_authors := [], count := 0, block_pos := 0 }
  | first :: rest =>
    if db.length < (rest.getLastD first).pos + (rest.getLastD first).size then none
    else
      match E.decompress ((db.drop (rest.getLastD first).pos).take
          (rest.getLastD first).size) with
      | none => none
      | some buffer =>
        match E.deserialize buffer with
        | none => none
        | some blk =>
          some { root := some first.hash, last := some (rest.getLastD first).hash,
                 next_authors := blk.next_choices, count := (first :: rest).length,
                 block_pos := (rest.getLastD first).pos + (rest.getLastD first).size }

/-- Run a sequence of `add_block` calls (each with its own
`force_allow_author` flag), succeeding only if every call succeeds. -/
def addBlockSeq (E : Prim) : Blockchain → List (Block × Bool) → Option Blockchain
  | bc, [] => some bc
  | bc, (b, f) :: rest =>
    match bc.add_block E b f with
    | (bc2, none) => addBlockSeq E bc2 rest
    | (_, some _) => none

/-- Store coherence: re-opening the files recovers the in-memory state,
and the write position is the size of `blocks.db`. -/
def StoreInv (E : Prim) (bc : Blockchain) : Prop :=
  openFiles E bc.indexFile bc.dbFile =
    some { root := bc.root, last := bc.last, next_authors := bc.next_authors,
           count := bc.count, block_pos := bc.block_pos } ∧
  bc.block_pos = bc.dbFile.length

theorem getLastD_append_singleton {α : Type} (l : List α) (a d : α) :
    (l ++ [a]).getLastD d = a := by
  induction l generalizing d with
  | nil => rfl
  | cons x xs ih => simp [List.getLastD]

theorem addBlock_success_state (E : Prim) (bc bc' : Blockchain) (blk : Block) (force : Bool)
    (h : bc.add_block E blk force = (bc', none)) :
    bc.last = blk.parent ∧ Block.verify E blk = true ∧
    bc' = { cache := blk.data.foldl (fun c d => cacheRemove c d.sign) bc.cache
            root := if bc.root = none then some blk.hash else bc.root
            last := some blk.hash
            next_authors := blk.next_choices
            count := bc.count + 1
            block_pos := bc.block_pos + (E.compress (E.serialize blk)).length
            indexFile := bc.indexFile ++
              [{ hash := blk.hash, pos := bc.block_pos,
                 size := (E.compress (E.serialize blk)).length }]
            dbFile := bc.dbFile ++ E.compress (E.serialize blk) } := by
  by_cases hpar : bc.last = blk.parent
  · by_cases hauth : bc.root.isSome = true ∧ ¬(blk.author ∈ bc.next_authors ∨ force = true)
    · rw [Blockchain.add_block, if_neg (not_not_intro hpar), if_pos hauth] at h
      simp at h
    · by_cases hver : Block.verify E blk = false
      · rw [Blockchain.add_block, if_neg (not_not_intro hpar), if_neg hauth,
          if_pos hver] at h
        simp at h
      · rw [Blockchain.add_block, if_neg (not_not_intro hpar), if_neg hauth,
          if_neg hver] at h
        exact ⟨hpar, by simpa using hver, (Prod.mk.injEq _ _ _ _ ▸ h).1.symm⟩
  · rw [Blockchain.add_block, if_pos hpar] at h
    simp at h

theorem storeInv_empty (E : Prim) : StoreInv E emptyChain := ⟨rfl, rfl⟩

theorem storeInv_addBlock (E : Prim)
    (hdc : ∀ l, E.decompress (E.compress l) = some l)
    (hds : ∀ b, E.deserialize (E.serialize b) = some b)
    (bc bc' : Blockchain) (blk : Block) (force : Bool)
    (hinv : StoreInv E bc) (h : bc.add_block E blk force = (bc', none)) :
    StoreInv E bc' := by
  obtain ⟨hopen, hpos⟩ := hinv
  obtain ⟨-, -, hbc'⟩ := addBlock_success_state E bc bc' blk force h
  subst hbc'
  unfold StoreInv
  dsimp only
  cases hidx : bc.indexFile with
  | nil =>
    rw [hidx] at hopen
    rw [openFiles] at hopen
    have hcomp := Option.some.inj hopen
    have hroot : bc.root = none := (congrArg OpenResult.root hcomp).symm
    have hcount : bc.count = 0 := (congrArg OpenResult.count hcomp).symm
    have hbp : bc.block_pos = 0 := (congrArg OpenResult.block_pos hcomp).symm
    have hdb : bc.dbFile = [] := List.length_eq_zero.mp (hpos.symm.trans hbp)
    refine ⟨?_, by simp [hpos]⟩
    rw [hdb]
    simp only [List.nil_append, openFiles, List.getLastD]
    rw [if_neg (by simp [hbp]), hbp]
    simp only [List.drop_zero, List.take_length]
    simp only [hdc, hds]
    simp [hroot, hcount, hbp]
  | cons first rest =>
    rw [hidx] at hopen
    rw [openFiles] at hopen
    split at hopen
    · cases hopen
    · rename_i hlen
      split at hopen
      · cases hopen
      · rename_i buffer hdec
        split at hopen
        · cases hopen
        · rename_i tipblk hdes
          have hcomp := Option.some.inj hopen
          have hroot : bc.root = some first.hash :=
            (congrArg OpenResult.root hcomp).symm
          have hcount : bc.count = (first :: rest).length :=
            (congrArg OpenResult.count hcomp).symm
          have hbp : bc.block_pos = (rest.getLastD first).pos + (rest.getLastD first).size :=
            (congrArg OpenResult.block_pos hcomp).symm
          refine ⟨?_, by simp [hpos]⟩
          simp only [List.cons_append, openFiles, getLastD_append_singleton]
          rw [if_neg (by simp [hpos, Nat.add_comm])]
          have hslice : (((bc.dbFile ++ E.compress (E.serialize blk)).drop bc.block_pos).take
              (E.compress (E.serialize blk)).length) = E.compress (E.serialize blk) := by
            rw [hpos, List.drop_left, List.take_length]
          rw [hslice]
          simp only [hdc, hds]
          simp [hroot, hcount]

/-- C4: starting from an empty store, after any sequence of successful
`add_block` calls, re-opening `index.db` and `blocks.db` with
`Blockchain::new` recovers exactly the in-memory state at shutdown: the
root is the first index entry's hash, the tip the last entry's hash, the
count the number of index entries, and `next_authors` the `next_choices`
of the decoded tip block.  The hypotheses are the round-trip laws of the
external zstd and borsh codecs. -/
theorem restart_recovery (E : Prim)
    (hdc : ∀ l, E.decompress (E.compress l) = some l)
    (hds : ∀ b, E.deserialize (E.serialize b) = some b)
    (seq : List (Block × Bool)) (bc : Blockchain)
    (h : addBlockSeq E emptyChain seq = some bc) :
    openFiles E bc.indexFile bc.dbFile =
      some { root := bc.root, last := bc.last, next_authors := bc.next_authors,
             count := bc.count, block_pos := bc.block_pos } := by
  suffices H : ∀ start : Blockchain, StoreInv E start →
      addBlockSeq E start seq = some bc → StoreInv E bc by
    exact (H emptyChain (storeInv_empty E) h).1
  clear h
  induction seq with
  | nil =>
    intro start hs heq
    cases Option.some.inj heq
    exact hs
  | cons p rest ih =>
    intro start hs heq
    obtain ⟨b, f⟩ := p
    cases hab : start.add_block E b f with
    | mk bc2 err =>
      cases err with
      | none =>
        refine ih bc2 (storeInv_addBlock E hdc hds start bc2 b f hs hab) ?_
        rw [addBlockSeq, hab] at heq
        exact heq
      | some e =>
        rw [addBlockSeq, hab] at heq
        exact Option.noConfusion heq

/-- `Data` as a nested product, towards an executable stand-in for borsh
serialization. -/
def dataEquivProd : Data ≃ (List Nat × List Nat × List Nat) where
  toFun d := (d.data, d.author, d.sign)
  invFun p := ⟨p.1, p.2.1, p.2.2⟩
  left_inv _ := rfl
  right_inv _ := rfl

instance : Encodable Data := Encodable.ofEquiv _ dataEquivProd

/-- `Block` as a nested product. -/
def blockEquivProd : Block ≃
    (Option (List Nat) × List Nat × List Data × List (List Nat) × List Nat × List Nat) where
  toFun b := (b.parent, b.hash, b.data, b.next_choices, b.author, b.sign)
  invFun p := ⟨p.1, p.2.1, p.2.2.1, p.2.2.2.1, p.2.2.2.2.1, p.2.2.2.2.2⟩
  left_inv _ := rfl
  right_inv _ := rfl

instance : Encodable Block := Encodable.ofEquiv _ blockEquivProd

/-- Concrete primitives with an injective executable serializer (a block
is encoded as the singleton list of its `Encodable` code), identity
compression, and the always-accepting toy signature check. -/
def borshE : Prim :=
  { toyE with
    serialize := fun b => [Encodable.encode b]
    deserialize := fun l => match l with | [n] => Encodable.decode n | _ => none }

theorem borshE_roundtrip (b : Block) :
    borshE.deserialize (borshE.serialize b) = some b := by
  simp [borshE, toyE, Encodable.encodek]

def c4blk : Block :=
  { parent := none, hash := [], data := [], next_choices := [], author := [], sign := [] }

def c4seq : List (Block × Bool) := [(c4blk, false)]

def c4chain : Blockchain :=
  { cache := [], root := some [], last := some [], next_authors := [], count := 1,
    block_pos := 1, indexFile := [{ hash := [], pos := 0, size := 1 }], dbFile := [0] }

theorem restart_recovery_witness :
    openFiles borshE c4chain.indexFile c4chain.dbFile =
      some { root := c4chain.root, last := c4chain.last,
             next_authors := c4chain.next_authors, count := c4chain.count,
             block_pos := c4chain.block_pos } :=
  restart_recovery borshE (fun _ => rfl) borshE_roundtrip c4seq c4chain (by decide)

/-- The chain-mutation logic of `Peer::on_share_block`
(`mccloud/src/lib.rs`): if the incoming block's hash equals the current
tip it is the same block again and is ignored (`Ok` with no change);
otherwise `all_offline` is computed over the current `next_authors`
against the known set and `add_block` is called with
`forced_restart && all_offline`. -/
def onShareBlock (E : Prim) (bc : Blockchain) (known : List (List Nat))
    (forced_restart : Bool) (blk : Block) : Blockchain × Option ChainErr :=
  if bc.last = some blk.hash then
    (bc, none)
  else
    bc.add_block E blk
      (forced_restart && bc.next_authors.all (fun a => !known.contains a))

def c5chain : Blockchain :=
  { cache := [], root := some [1], last := some [1], next_authors := [[9]], count := 1,
    block_pos := 1, indexFile := [{ hash := [1], pos := 0, size := 1 }], dbFile := [0] }

def c5blk : Block :=
  { parent := none, hash := [1], data := [], next_choices := [], author := [9], sign := [] }

/-- C5 counterexample: `add_block` itself is not idempotent.  With the
tip equal to `[1]` and a block whose hash is that very tip (the block
that produced the tip: its parent is `none`), a direct second
`add_block` call returns the `NonChildBlock` error, not a successful
no-op — the duplicate is absorbed one level up, in
`Peer::on_share_block`. -/
theorem add_block_not_idempotent :
    c5chain.last = some c5blk.hash ∧
    (c5chain.add_block toyE c5blk false).2 = some (ChainErr.nonChildBlock c5blk.hash) ∧
    (c5chain.add_block toyE c5blk false).2 ≠ none := by
  refine ⟨rfl, ?_, ?_⟩ <;> decide

/-- C5 (amended): re-delivery of the block whose hash equals the current
tip is absorbed by `Peer::on_share_block`: it returns `Ok` and leaves
the whole chain state unchanged, without calling `add_block`. -/
theorem onShareBlock_duplicate_tip (E : Prim) (bc : Blockchain) (known : List (List Nat))
    (forced_restart : Bool) (blk : Block) (h : bc.last = some blk.hash) :
    onShareBlock E bc known forced_restart blk = (bc, none) := by
  rw [onShareBlock, if_pos h]

theorem onShareBlock_duplicate_tip_witness :
    onShareBlock toyE c5chain [] false c5blk = (c5chain, none) :=
  onShareBlock_duplicate_tip toyE c5chain [] false c5blk (by decide)

/-- Concrete primitives whose "signature scheme" accepts exactly the
signatures of the shape author ∥ digest, so that a valid signature can
be produced for any chosen digest without the signer committing to the
block's `hash` field. -/
def sigE : Prim :=
  { toyE with schnorrVerify := fun a d s => s == a ++ d }

def c6blk : Block :=
  { parent := none, hash := [9, 9], data := [], next_choices := [], author := [5],
    sign := [5, 5, 1] }

/-- C6 counterexample: a block whose stored `hash` field differs from
the recomputed digest is accepted by `add_block` — `Block::verify` only
checks the signature over the recomputed digest and never compares it
with the stored `hash`.  Here the digest of `c6blk` is `[5, 1]`, its
signature verifies, its stored hash is `[9, 9]`, and the block is
accepted into the empty chain (which then records tip `[9, 9]`). -/
theorem add_block_accepts_wrong_hash :
    (emptyChain.add_block sigE c6blk false).2 = none ∧
    c6blk.hash ≠ hash_data sigE c6blk.parent c6blk.author c6blk.next_choices c6blk.data ∧
    (emptyChain.add_block sigE c6blk false).1.last = some [9, 9] := by
  refine ⟨?_, ?_, ?_⟩ <;> decide

/-- C6 (amended): blocks produced by `create_block` do carry the
recomputed digest in their `hash` field, but neither `Block::verify` nor
`add_block` compares the stored hash with the recomputed digest:
verification and acceptance are invariant under replacing the `hash`
field by anything. -/
theorem add_block_success_iff (E : Prim) (bc : Blockchain) (blk : Block) (force : Bool) :
    (bc.add_block E blk force).2 = none ↔
      (bc.last = blk.parent ∧
        ¬(bc.root.isSome = true ∧ ¬(blk.author ∈ bc.next_authors ∨ force = true)) ∧
        Block.verify E blk = true) := by
  unfold Blockchain.add_block
  by_cases hpar : bc.last = blk.parent
  · by_cases hauth : bc.root.isSome = true ∧ ¬(blk.author ∈ bc.next_authors ∨ force = true)
    · rw [if_neg (not_not_intro hpar), if_pos hauth]
      simp [hpar, hauth]
    · by_cases hver : Block.verify E blk = false
      · rw [if_neg (not_not_intro hpar), if_neg hauth, if_pos hver]
        simp [hpar, hauth, hver]
      · rw [if_neg (not_not_intro hpar), if_neg hauth, if_neg hver]
        have hv : Block.verify E blk = true := by
          revert hver; cases Block.verify E blk <;> simp
        simp only [hpar, hv]
        push_neg at hauth
        simp only [true_and, and_true]
        constructor
        · intro _ h1
          exact h1.2 (hauth h1.1)
        · intro _
          trivial
  · rw [if_pos hpar]
    simp [hpar]

theorem verify_ignores_stored_hash (E : Prim) (bc : Blockchain) (blk : Block)
    (force : Bool) (h' : List Nat) :
    (Block.verify E { blk with hash := h' } = Block.verify E blk) ∧
    ((bc.add_block E { blk with hash := h' } force).2 = none ↔
      (bc.add_block E blk force).2 = none) := by
  refine ⟨rfl, ?_⟩
  rw [add_block_success_iff, add_block_success_iff]
  rfl

/-- The skip loop of `BlockIterator::new`: when a start hash is given,
consume index entries until one matches (the match itself is consumed,
so iteration resumes strictly after it); when no entry matches, the
whole index is consumed. -/
def skipPast (h : List Nat) : List IndexEntry → List IndexEntry
  | [] => []
  | e :: rest => if e.hash = h then rest else skipPast h rest

/-- The index entries a `BlockIterator` built with the given `start`
will visit. -/
def blockIteratorEntries (index : List IndexEntry) (start : Option (List Nat)) :
    List IndexEntry :=
  match start with
  | none => index
  | some h => skipPast h index

/-- One step of `BlockIterator::next` on an index entry: seek
`blocks.db` to the entry's offset, read `size` bytes (`none` when the
file is too short, modelling the `read_exact` error), decompress and
deserialize; each failure is a per-item error (`none`). -/
def blockAt (E : Prim) (db : List Nat) (e : IndexEntry) : Option Block :=
  if db.length < e.pos + e.size then none
  else
    match E.decompress ((db.drop e.pos).take e.size) with
    | none => none
    | some buffer => E.deserialize buffer

/-- `Blockchain::get_blocks(start)` as the list of items its
`BlockIterator` yields, `none` standing for a per-item error. -/
def get_blocks (E : Prim) (index : List IndexEntry) (db : List Nat)
    (start : Option (List Nat)) : List (Option Block) :=
  (blockIteratorEntries index start).map (blockAt E db)

theorem skipPast_of_not_mem (h : List Nat) (index : List IndexEntry)
    (hnot : ∀ e ∈ index, e.hash ≠ h) : skipPast h index = [] := by
  induction index with
  | nil => rfl
  | cons e rest ih =>
    rw [skipPast, if_neg (hnot e (List.mem_cons_self e rest))]
    exact ih (fun x hx => hnot x (List.mem_cons_of_mem e hx))

/-- C10: for a start hash that occurs in no entry of `index.db`,
`get_blocks(Some h)` yields nothing at all: the skip loop of
`BlockIterator::new` exhausts the index without matching, and the
iterator does not fall back to streaming from the root. -/
theorem get_blocks_unknown_start (E : Prim) (index : List IndexEntry) (db : List Nat)
    (h : List Nat) (hnot : ∀ e ∈ index, e.hash ≠ h) :
    get_blocks E index db (some h) = [] := by
  rw [get_blocks, blockIteratorEntries, skipPast_of_not_mem h index hnot]
  rfl

def c10index : List IndexEntry :=
  [{ hash := [1], pos := 0, size := 1 }, { hash := [2], pos := 1, size := 1 }]

theorem get_blocks_unknown_start_witness :
    get_blocks toyE c10index [0, 0] (some [7]) = [] :=
  get_blocks_unknown_start toyE c10index [0, 0] [7] (by decide)

/-- `ClientWriter` nonce state (`mccloud/src/client.rs`): a u64 counter,
initialized to 1 by `ClientWriter::new`. -/
structure WriterState where
  nonce : Nat
deriving DecidableEq

def writerInit : WriterState := { nonce := 1 }

/-- `ClientWriter::write` stamps the frame with the current nonce and
then increments it (u64 arithmetic, hence modulo 2^64).  The returned
pair is (nonce field of the emitted frame, state afterwards). -/
def writerWrite (w : WriterState) : Nat × WriterState :=
  (w.nonce, { nonce := (w.nonce + 1) % 2 ^ 64 })

/-- Writer state after `k` frames have been sent. -/
def writerState : Nat → WriterState
  | 0 => writerInit
  | k + 1 => (writerWrite (writerState k)).2

/-- The nonce carried by the `k`-th emitted frame (0-based). -/
def writerFrame (k : Nat) : Nat := (writerWrite (writerState k)).1

/-- `ClientReader` nonce state: the highest accepted nonce, initialized
to 0 by `ClientReader::new`. -/
structure ReaderState where
  nonce : Nat
deriving DecidableEq

def readerInit : ReaderState := { nonce := 0 }

inductive ProtoErr where
  | nonceTooLow
deriving DecidableEq

/-- The nonce check of `ClientReader::read`: a frame whose nonce is not
strictly greater than the highest accepted one is rejected with a
`Protocol` error ("nonce to low"); on acceptance the highest accepted
nonce becomes the frame's nonce. -/
def readerRead (r : ReaderState) (frameNonce : Nat) : Except ProtoErr ReaderState :=
  if r.nonce ≥ frameNonce then Except.error ProtoErr.nonceTooLow
  else Except.ok { nonce := frameNonce }

theorem writerState_nonce (k : Nat) (hk : k + 1 < 2 ^ 64) :
    (writerState k).nonce = k + 1 := by
  induction k with
  | zero => rfl
  | succ n ih =>
    have hn : n + 1 < 2 ^ 64 := Nat.lt_of_succ_lt hk
    rw [writerState, writerWrite]
    simp only [ih hn]
    exact Nat.mod_eq_of_lt hk

/-- C3: within one session direction the writer's first frame carries
nonce 1 and each subsequent frame's nonce is exactly one larger (as long
as the u64 counter does not wrap); the reader starts with highest
accepted nonce 0, rejects with a Protocol error precisely the frames
whose nonce is at most the highest accepted one, and on acceptance
raises the highest accepted nonce to the frame's nonce — so the nonces
it accepts are strictly increasing. -/
theorem session_nonce_discipline :
    writerInit.nonce = 1 ∧ readerInit.nonce = 0 ∧
    (∀ k : Nat, k + 1 < 2 ^ 64 → writerFrame k = k + 1) ∧
    (∀ (r : ReaderState) (n : Nat),
      readerRead r n = Except.error ProtoErr.nonceTooLow ↔ n ≤ r.nonce) ∧
    (∀ (r : ReaderState) (n : Nat) (r' : ReaderState),
      readerRead r n = Except.ok r' → r.nonce < r'.nonce ∧ r'.nonce = n) := by
  refine ⟨rfl, rfl, ?_, ?_, ?_⟩
  · intro k hk
    rw [writerFrame, writerWrite]
    exact writerState_nonce k hk
  · intro r n
    rw [readerRead]
    by_cases hle : r.nonce ≥ n
    · rw [if_pos hle]
      simp [hle]
    · rw [if_neg hle]
      simp [hle]
  · intro r n r' hok
    rw [readerRead] at hok
    by_cases hle : r.nonce ≥ n
    · rw [if_pos hle] at hok
      cases hok
    · rw [if_neg hle] at hok
      have := Except.ok.inj hok
      subst this
      exact ⟨Nat.lt_of_not_le hle, rfl⟩

theorem session_nonce_discipline_witness :
    (2 + 1 < 2 ^ 64 ∧ writerFrame 2 = 2 + 1) ∧
    (readerRead { nonce := 5 } 5 = Except.error ProtoErr.nonceTooLow ∧ 5 ≤ 5) ∧
    (readerRead { nonce := 5 } 6 = Except.ok { nonce := 6 } ∧ (5 : Nat) < 6) :=
  ⟨⟨by decide, session_nonce_discipline.2.2.1 2 (by decide)⟩,
   ⟨(session_nonce_discipline.2.2.2.1 { nonce := 5 } 5).mpr (by decide), by decide⟩,
   ⟨rfl, by decide⟩⟩

/-- `Version` (`mccloud/src/version.rs`): semantic triple plus build
metadata strings. -/
structure Version where
  major : Nat
  minor : Nat
  patch : Nat
  target : String
  branch : String
  commit : String
deriving DecidableEq

/-- The manual `PartialEq` impl for `Version`: only the
(major, minor, patch) triple is compared. -/
def Version.beq (a b : Version) : Bool :=
  a.major == b.major && a.minor == b.minor && a.patch == b.patch

inductive AcceptAbort where
  | versionMismatch
  | rootMismatch
deriving DecidableEq

/-- The greeting validation of `Peer::accept` (`mccloud/src/lib.rs`):
abort with the "mccloud versions do not match" Protocol error when the
versions are unequal, then with the "blockchain root does not match"
Protocol error when both roots are set and differ. -/
def greetingChecks (myVersion : Version) (myroot : Option (List Nat))
    (gVersion : Version) (gRoot : Option (List Nat)) : Option AcceptAbort :=
  if ¬(Version.beq myVersion gVersion = true) then some AcceptAbort.versionMismatch
  else if myroot.isSome = true ∧ gRoot.isSome = true ∧ myroot ≠ gRoot then
    some AcceptAbort.rootMismatch
  else none

/-- C7: two `Version` values compare equal exactly when their
(major, minor, patch) triples agree componentwise — the target, branch
and commit strings never influence the comparison — and the handshake
aborts with the version-mismatch Protocol error exactly when the two
greeted versions are unequal under this comparison. -/
theorem version_compare (a b : Version) (myroot gRoot : Option (List Nat))
    (t br c : String) :
    (Version.beq a b = true ↔ (a.major = b.major ∧ a.minor = b.minor ∧ a.patch = b.patch)) ∧
    (Version.beq { a with target := t, branch := br, commit := c } b = Version.beq a b) ∧
    (greetingChecks a myroot b gRoot = some AcceptAbort.versionMismatch ↔
      Version.beq a b = false) := by
  refine ⟨?_, rfl, ?_⟩
  · rw [Version.beq]
    simp [and_assoc]
  · rw [greetingChecks]
    by_cases hv : Version.beq a b = true
    · rw [if_neg (not_not_intro hv)]
      constructor
      · intro h
        split at h
        · cases h
        · cases h
      · intro h
        rw [h] at hv
        cases hv
    · rw [if_pos hv]
      simp [Bool.not_eq_true] at hv
      simp [hv]

/-- The catch-up decision after a successful handshake in `Peer::accept`
(`mccloud/src/lib.rs`, lines 372–393): the whole block runs only for a
non-thin peer, and `RequestBlocks { start: mylast }` is written exactly
when `(myroot.is_none() || count > mycount) && last.is_some()`.  The
result is the `start` field of the sent request, or `none` when no
request is sent. -/
def catchUpRequest (myroot mylast : Option (List Nat)) (mycount : Nat)
    (theirThin : Bool) (theirLast : Option (List Nat)) (theirCount : Nat) :
    Option (Option (List Nat)) :=
  if theirThin = false ∧ (myroot = none ∨ theirCount > mycount) ∧ theirLast.isSome = true
  then some mylast
  else none

/-- C8 counterexample: a local node with no root receiving a greeting
that advertises three blocks but no tip hash (`last = None`) sends no
`RequestBlocks`, although the claim's condition (no local root, and
greeted count exceeding the local count) holds. -/
theorem catchUp_counterexample :
    catchUpRequest none none 0 false none 3 = none ∧
    ((none : Option (List Nat)) = none ∨ 3 > 0) := by
  exact ⟨by decide, Or.inl rfl⟩

/-- C8 (amended): after a successful handshake the local node sends
`RequestBlocks { start: local tip }` if and only if the peer is
non-thin, its greeting carries a tip (`last` is `Some`), and the local
node has no root or the peer's greeted block count exceeds the local
count. -/
theorem catchUp_characterization (myroot mylast : Option (List Nat)) (mycount : Nat)
    (theirThin : Bool) (theirLast : Option (List Nat)) (theirCount : Nat) :
    (catchUpRequest myroot mylast mycount theirThin theirLast theirCount = some mylast ↔
      (theirThin = false ∧ (myroot = none ∨ theirCount > mycount) ∧
        theirLast.isSome = true)) ∧
    (∀ s, catchUpRequest myroot mylast mycount theirThin theirLast theirCount = some s →
      s = mylast) := by
  rw [catchUpRequest]
  by_cases hc : theirThin = false ∧ (myroot = none ∨ theirCount > mycount) ∧
      theirLast.isSome = true
  · rw [if_pos hc]
    exact ⟨by simp [hc], fun s hs => (Option.some.inj hs).symm⟩
  · rw [if_neg hc]
    exact ⟨by simp [hc], fun s hs => Option.noConfusion hs⟩

/-- A `ShareData` gossip message, as sent by `perform_share`. -/
inductive SentMsg where
  | shareData (d : Data)
deriving DecidableEq

/-- `Data::new` (`mcriddle/src/blockchain.rs`): digest is SHA-256 over
author ∥ payload, signed with the node's secret key (the k256 signing
operation is the external parameter `sgn`). -/
def mkData (sha : List Nat → List Nat) (sgn : List Nat → List Nat)
    (payload me : List Nat) : Data :=
  { data := payload, author := me, sign := sgn (sha (me ++ payload)) }

/-- `Peer::perform_share` (`mccloud/src/lib.rs`): if the pending cache
has no entry under the data's signature, insert it and broadcast
`ShareData` to every session; otherwise do nothing.  Returns the new
cache and the list of (session key, message) pairs written. -/
def perform_share (cache : List (List Nat × Data)) (sessions : List (List Nat))
    (data : Data) : List (List Nat × Data) × List (List Nat × SentMsg) :=
  if cacheLookup cache data.sign = none then
    (cache ++ [(data.sign, data)], sessions.map (fun k => (k, SentMsg.shareData data)))
  else
    (cache, [])

/-- `Peer::share`: sign the payload as self (`Data::new`), then
`perform_share` with no originating session (broadcast to all). -/
def share (sha : List Nat → List Nat) (sgn : List Nat → List Nat)
    (me payload : List Nat) (cache : List (List Nat × Data))
    (sessions : List (List Nat)) : List (List Nat × Data) × List (List Nat × SentMsg) :=
  perform_share cache sessions (mkData sha sgn payload me)

theorem cacheLookup_append_self (cache : List (List Nat × Data)) (d : Data)
    (hfresh : cacheLookup cache d.sign = none) :
    cacheLookup (cache ++ [(d.sign, d)]) d.sign = some d := by
  rw [cacheLookup] at hfresh
  have h1 := Option.map_eq_none'.mp hfresh
  rw [cacheLookup, List.find?_append, h1]
  simp

/-- C9: `share` signs the payload as self; when no entry with the same
signature is in the pending cache it inserts the signed data keyed by
its signature and broadcasts `ShareData` to every session; when an
entry with that signature is already present the call is a no-op — the
cache is unchanged and nothing is sent. -/
theorem share_inserts_and_broadcasts (sha sgn : List Nat → List Nat)
    (me payload : List Nat) (cache : List (List Nat × Data))
    (sessions : List (List Nat)) :
    (mkData sha sgn payload me).author = me ∧
    (mkData sha sgn payload me).data = payload ∧
    (cacheLookup cache (mkData sha sgn payload me).sign = none →
      (share sha sgn me payload cache sessions).1 =
        cache ++ [((mkData sha sgn payload me).sign, mkData sha sgn payload me)] ∧
      cacheLookup (share sha sgn me payload cache sessions).1
          (mkData sha sgn payload me).sign = some (mkData sha sgn payload me) ∧
      (share sha sgn me payload cache sessions).2 =
        sessions.map (fun k => (k, SentMsg.shareData (mkData sha sgn payload me)))) ∧
    (cacheLookup cache (mkData sha sgn payload me).sign ≠ none →
      (share sha sgn me payload cache sessions) = (cache, [])) := by
  refine ⟨rfl, rfl, ?_, ?_⟩
  · intro hfresh
    rw [share, perform_share, if_pos hfresh]
    exact ⟨rfl, cacheLookup_append_self cache _ hfresh, rfl⟩
  · intro hstale
    rw [share, perform_share, if_neg hstale]

def c9cache : List (List Nat × Data) :=
  [([7], { data := [1], author := [2], sign := [7] })]

theorem share_inserts_and_broadcasts_witness :
    cacheLookup c9cache (mkData id id [3] [4]).sign = none ∧
    ((share id id [4] [3] c9cache [[8], [9]]).1 =
        c9cache ++ [((mkData id id [3] [4]).sign, mkData id id [3] [4])] ∧
      cacheLookup (share id id [4] [3] c9cache [[8], [9]]).1
          (mkData id id [3] [4]).sign = some (mkData id id [3] [4]) ∧
      (share id id [4] [3] c9cache [[8], [9]]).2 =
        [[8], [9]].map (fun k => (k, SentMsg.shareData (mkData id id [3] [4])))) :=
  ⟨by decide,
   (share_inserts_and_broadcasts id id [4] [3] c9cache [[8], [9]]).2.2.1 (by decide)⟩

/-- The scan loop of `Peer::check_is_me_next` (`mccloud/src/lib.rs`):
iterate `next_authors` in order; at the first entry contained in the
known set return `false`, at the first entry equal to the own key
return `true`; `none` when the loop falls through.  Keys are an
arbitrary linearly ordered type, standing for 33-byte arrays under
Rust's lexicographic `Ord`. -/
def cimnScan {K : Type} [DecidableEq K] (me : K) (known : List K) :
    List K → Option Bool
  | [] => none
  | n :: rest =>
    if n ∈ known then some false
    else if n = me then some true
    else cimnScan me known rest

/-- `Peer::check_is_me_next`: the scan loop above, then the liveness
fallback — when `(root.is_none() || forced_restart) && !known.is_empty()
&& !cache.is_empty()`, push the own key onto the known keys, sort
(`sort_unstable`), and return whether the first element is the own key.
`root_is_none` and `cache_is_empty` snapshot `blkch.root.is_none()` and
`blkch.cache.is_empty()`. -/
def check_is_me_next {K : Type} [LinearOrder K] [DecidableEq K]
    (me : K) (next_authors known : List K)
    (root_is_none forced_restart cache_is_empty : Bool) : Bool :=
  match cimnScan me known next_authors with
  | some b => b
  | none =>
    if (root_is_none || forced_restart) && !known.isEmpty && !cache_is_empty then
      match List.insertionSort (· ≤ ·) (known ++ [me]) with
      | [] => false
      | k0 :: _ => decide (k0 = me)
    else false

/-- The amended claim C2, stated declaratively: the first entry of
`next_authors` that is known-online or equal to self decides the result
(false when known-online, true when it is self and not known-online);
with no such entry, the fallback fires under the stated conditions and
returns whether self is a least element of known ∪ self. -/
def checkIsMeNextSpec {K : Type} [LinearOrder K] [DecidableEq K]
    (me : K) (next_authors known : List K)
    (root_is_none forced_restart cache_is_empty : Bool) : Bool :=
  match next_authors.find? (fun n => decide (n ∈ known) || decide (n = me)) with
  | some n => decide (n ∉ known)
  | none =>
    if (root_is_none || forced_restart) && !known.isEmpty && !cache_is_empty then
      decide (∀ x ∈ known, me ≤ x)
    else false

theorem cimnScan_eq_find {K : Type} [DecidableEq K] (me : K) (known na : List K) :
    cimnScan me known na =
      (na.find? (fun n => decide (n ∈ known) || decide (n = me))).map
        (fun n => decide (n ∉ known)) := by
  induction na with
  | nil => rfl
  | cons n rest ih =>
    by_cases h1 : n ∈ known
    · rw [cimnScan, if_pos h1, List.find?_cons_of_pos _ (by simp [h1])]
      simp [h1]
    · by_cases h2 : n = me
      · rw [cimnScan, if_neg h1, if_pos h2, List.find?_cons_of_pos _ (by simp [h2])]
        simp [h1]
      · rw [cimnScan, if_neg h1, if_neg h2, List.find?_cons_of_neg _ (by simp [h1, h2])]
        exact ih

theorem sortedHead_eq_me_iff {K : Type} [LinearOrder K] [DecidableEq K]
    (me : K) (known : List K) :
    (match List.insertionSort (· ≤ ·) (known ++ [me]) with
      | [] => false
      | k0 :: _ => decide (k0 = me)) = decide (∀ x ∈ known, me ≤ x) := by
  cases hs : List.insertionSort (· ≤ ·) (known ++ [me]) with
  | nil =>
    exfalso
    have hp := List.perm_insertionSort (· ≤ ·) (known ++ [me])
    rw [hs] at hp
    have := hp.length_eq
    simp at this
  | cons k0 rest =>
    have hp := List.perm_insertionSort (· ≤ ·) (known ++ [me])
    have hsrt := List.sorted_insertionSort (· ≤ ·) (known ++ [me])
    rw [hs] at hp hsrt
    rw [List.sorted_cons] at hsrt
    obtain ⟨hk0le, -⟩ := hsrt
    simp only [decide_eq_decide]
    constructor
    · intro hk0 x hx
      have hxmem : x ∈ k0 :: rest := hp.mem_iff.mpr (List.mem_append_left _ hx)
      rcases List.mem_cons.mp hxmem with h | h
      · rw [h, hk0]
      · exact hk0 ▸ hk0le x h
    · intro hme
      have hk0mem : k0 ∈ known ++ [me] := hp.mem_iff.mp (List.mem_cons_self k0 rest)
      have hmemem : me ∈ k0 :: rest :=
        hp.mem_iff.mpr (List.mem_append_right _ (List.mem_singleton.mpr rfl))
      have hk0me : k0 ≤ me := by
        rcases List.mem_cons.mp hmemem with h | h
        · exact le_of_eq h.symm
        · exact hk0le me h
      rcases List.mem_append.mp hk0mem with h | h
      · exact le_antisymm hk0me (hme k0 h)
      · exact List.mem_singleton.mp h

/-- C2 (amended): `check_is_me_next` equals the declarative
specification `checkIsMeNextSpec` — the scan is decided by the first
entry of `next_authors` that is known-online (false) or equal to self
(true), in that order of precedence per entry; with no deciding entry,
under `(root is None ∨ forced_restart) ∧ known ≠ ∅ ∧ pending cache ≠ ∅`
the result is whether self's key is ≤ every known key (self is the
least of sorted known ∪ self), and in every other case false. -/
theorem check_is_me_next_eq_spec {K : Type} [LinearOrder K] [DecidableEq K]
    (me : K) (na known : List K) (rn fr ce : Bool) :
    check_is_me_next me na known rn fr ce = checkIsMeNextSpec me na known rn fr ce := by
  rw [check_is_me_next, checkIsMeNextSpec, cimnScan_eq_find me known na]
  cases hf : na.find? (fun n => decide (n ∈ known) || decide (n = me)) with
  | some n => simp
  | none =>
    simp only [Option.map_none']
    split
    · exact sortedHead_eq_me_iff me known
    · rfl

/-- C2 counterexample: with own key 0, `next_authors = [0, 1]` and known
set `{1}`, entry 1 of `next_authors` is known-online, yet
`check_is_me_next` returns `true` — the scan hits the entry equal to
self first.  The claim's clause "returns false whenever some entry of
next_authors is in the known set" therefore fails. -/
theorem check_is_me_next_counterexample :
    check_is_me_next (0 : Nat) [0, 1] [1] true true false = true ∧
    (1 : Nat) ∈ [0, 1] ∧ (1 : Nat) ∈ [1] := by
  refine ⟨by decide, by decide, by decide⟩

def c1blk : Block :=
  { parent := some [2], hash := [4], data := [], next_choices := [], author := [9],
    sign := [] }

theorem add_block_rejections_witness :
    (c5chain.add_block toyE c1blk false).2 = some (ChainErr.nonChildBlock c1blk.hash) ∧
    (c5chain.add_block toyE c1blk false).1 = c5chain :=
  ⟨(add_block_rejections toyE c5chain c1blk false).1.mpr (by decide),
   (add_block_rejections toyE c5chain c1blk false).2.2
     (ChainErr.nonChildBlock c1blk.hash)
     ((add_block_rejections toyE c5chain c1blk false).1.mpr (by decide))⟩

theorem catchUp_characterization_witness :
    catchUpRequest none none 0 false (some [2]) 3 = some none :=
  (catchUp_characterization none none 0 false (some [2]) 3).1.mpr (by decide)
